import Mathlib

/-!
# Replay engine control surface (tools/replay/replay.h)

A shallow embedding of the `Replay` class declared in `tools/replay/replay.h`:
its member fields with their default initialisers, and the member functions
whose bodies are in the header (`installEventFilter`, `segmentCacheLimit`,
`setSegmentCacheLimit`, `hasFlag`, `setLoop`, `loop`, `currentSeconds`,
`toSeconds`, `minSeconds`, `setSpeed`, `getSpeed`).

Machine types:
* `int` values are `Int`; the one arithmetic operation on them
  (`first * 60` in `minSeconds`) is wrapped to 32 bits by `wrapInt32`;
* `uint32_t` / `uint64_t` values are `Nat` with explicit reduction
  modulo `2^32` / `2^64`;
* `float` / `double` values are `ℚ` (every finite value of the binary formats
  is a rational). `setSpeed` / `getSpeed` only store and return the value.
  `toSeconds` and `currentSeconds` compute in `double`: the conversion of the
  64-bit difference (`u64ToDouble`) and the division by `1e9` (`divBy1e9`) are
  IEEE 754 binary64 operations, rounded to nearest with ties to even.
-/

/-! ## Constants and flags -/

/-- `constexpr int MIN_SEGMENTS_CACHE = 5;` -/
def MIN_SEGMENTS_CACHE : Int := 5

/-- `enum REPLAY_FLAGS`. -/
inductive REPLAY_FLAGS where
  | REPLAY_FLAG_NONE
  | REPLAY_FLAG_DCAM
  | REPLAY_FLAG_ECAM
  | REPLAY_FLAG_NO_LOOP
  | REPLAY_FLAG_NO_FILE_CACHE
  | REPLAY_FLAG_QCAMERA
  | REPLAY_FLAG_NO_HW_DECODER
  | REPLAY_FLAG_NO_VIPC
  | REPLAY_FLAG_ALL_SERVICES
  deriving DecidableEq, Repr

open REPLAY_FLAGS

/-- The enumerator values of `REPLAY_FLAGS`. -/
def REPLAY_FLAGS.val : REPLAY_FLAGS → Nat
  | REPLAY_FLAG_NONE => 0x0000
  | REPLAY_FLAG_DCAM => 0x0002
  | REPLAY_FLAG_ECAM => 0x0004
  | REPLAY_FLAG_NO_LOOP => 0x0010
  | REPLAY_FLAG_NO_FILE_CACHE => 0x0020
  | REPLAY_FLAG_QCAMERA => 0x0040
  | REPLAY_FLAG_NO_HW_DECODER => 0x0100
  | REPLAY_FLAG_NO_VIPC => 0x0400
  | REPLAY_FLAG_ALL_SERVICES => 0x0800

/-- The position of the single bit of an option (0 for `REPLAY_FLAG_NONE`,
which has no bit). -/
def REPLAY_FLAGS.bit : REPLAY_FLAGS → Nat
  | REPLAY_FLAG_NONE => 0
  | REPLAY_FLAG_DCAM => 1
  | REPLAY_FLAG_ECAM => 2
  | REPLAY_FLAG_NO_LOOP => 4
  | REPLAY_FLAG_NO_FILE_CACHE => 5
  | REPLAY_FLAG_QCAMERA => 6
  | REPLAY_FLAG_NO_HW_DECODER => 8
  | REPLAY_FLAG_NO_VIPC => 10
  | REPLAY_FLAG_ALL_SERVICES => 11

/-- The bitwise OR of the values of a collection of options. -/
def orFlags (S : List REPLAY_FLAGS) : Nat := S.foldl (fun acc f => acc ||| f.val) 0

/-- Two's-complement reduction of an integer to the range of a 32-bit `int`. -/
def wrapInt32 (x : Int) : Int := (x + 2147483648) % 4294967296 - 2147483648

/-- Difference of two `uint64_t` values, as C++ computes it: modulo `2^64`. -/
def subU64 (a b : Nat) : Nat := (a + (2 ^ 64 - b % 2 ^ 64)) % 2 ^ 64

/-- The quotient `n / d` rounded to the nearest integer, ties to the even one. -/
def roundHalfEven (n d : Nat) : Nat :=
  if 2 * (n % d) < d then n / d
  else if d < 2 * (n % d) then n / d + 1
  else if (n / d) % 2 = 0 then n / d else n / d + 1

/-- The least `j` from the given one with `d < 2^(53 + j)`, tried `fuel` times:
the number of low bits a 64-bit integer loses in a 53-bit significand. -/
def scaleDown (d : Nat) : Nat → Nat → Nat
  | 0, j => j
  | fuel + 1, j => if d < 2 ^ (53 + j) then j else scaleDown d fuel (j + 1)

/-- Conversion of a `uint64_t` value to `double` (binary64, round to nearest,
ties to even). The result is an integer: values below `2^53` are exact, larger
ones are rounded to 53 significant bits. -/
def u64ToDouble (d : Nat) : Nat :=
  roundHalfEven d (2 ^ scaleDown d 11 0) * 2 ^ scaleDown d 11 0

/-- The least `k` from the given one with `2^52 * 10^9 <= x * 2^k`, tried `fuel`
times: the binary scale that puts the significand of `x / 10^9` in
`[2^52, 2^53)`. -/
def scaleUp (x : Nat) : Nat → Nat → Nat
  | 0, k => k
  | fuel + 1, k => if 2 ^ 52 * 10 ^ 9 ≤ x * 2 ^ k then k else scaleUp x fuel (k + 1)

/-- The `double` division `x / 1e9` (binary64, round to nearest, ties to even)
of an integer-valued `double` `x` of at most `2^64`, the range of
`u64ToDouble` on 64-bit values; `1e9` is exact in binary64 and the quotient is
in the normal range. -/
def divBy1e9 (x : Nat) : ℚ :=
  if x = 0 then 0
  else (roundHalfEven (x * 2 ^ scaleUp x 82 0) (10 ^ 9) : ℚ) / 2 ^ scaleUp x 82 0

/-! ## Data model -/

/-- Modelled from the spec: the `Event` record type is declared outside
`replay.h` (the header only names it). Fields follow the spec's data model:
`{ monotonic_time: u64_nanos, channel: string_id, payload: opaque_bytes,
segment_index: int }`. -/
structure Event where
  monotonic_time : Nat
  channel : String
  payload : List Nat
  segment_index : Int
  deriving DecidableEq, Repr

/-- Modelled from the spec: the load state of a `Segment`
(`load_state: {Pending, Loading, Loaded, Failed}`). -/
inductive LoadState where
  | Pending
  | Loading
  | Loaded
  | Failed
  deriving DecidableEq, Repr

/-- Modelled from the spec: the `Segment` class is declared outside
`replay.h`. Fields follow the spec's data model: `index: int`, `load_state`,
and the owned decoded `events`. -/
structure Segment where
  index : Int
  load_state : LoadState
  events : List Event
  deriving DecidableEq, Repr

/-- `typedef std::map<int, std::unique_ptr<Segment>> SegmentMap;`
A `std::map` keeps its entries in strictly increasing key order; a
`unique_ptr` may be null (`none`). -/
structure SegmentMap where
  entries : List (Int × Option Segment)
  ordered : entries.Pairwise (fun a b => a.1 < b.1)

/-- The empty map. -/
def SegmentMap.empty : SegmentMap := ⟨[], List.Pairwise.nil⟩

/-- The keys of the map, in iteration order. -/
def SegmentMap.keys (m : SegmentMap) : List Int := m.entries.map Prod.fst

/-- The number of entries holding a segment (a non-null pointer). -/
def SegmentMap.resident (m : SegmentMap) : Nat :=
  (m.entries.filter (fun e => e.2.isSome)).length

/-- `typedef bool (*replayEventFilter)(const Event *, void *);`
The second argument is the context pointer, an address. -/
abbrev replayEventFilter := Event → Nat → Bool

/-- The member fields of `class Replay` that the header's inline member
functions read or write, and the buffers the pipeline works on. -/
structure Replay where
  user_paused_ : Bool
  current_segment_ : Int
  seeking_to_ : Option ℚ
  segments_ : SegmentMap
  exit_ : Bool
  paused_ : Bool
  events_ready_ : Bool
  route_start_ts_ : Nat
  cur_mono_time_ : Nat
  max_seconds_ : ℚ
  events_ : List Event
  merged_segments_ : List Int
  flags_ : Nat
  speed_ : ℚ
  event_filter : Option replayEventFilter
  filter_opaque : Nat
  segment_cache_limit : Int

namespace Replay

/-- The state given by the default member initialisers of the class; the
constructor's `flags` argument initialises `flags_` (a `uint32_t`). -/
def construct (flags : Nat) : Replay where
  user_paused_ := false
  current_segment_ := 0
  seeking_to_ := none
  segments_ := SegmentMap.empty
  exit_ := false
  paused_ := false
  events_ready_ := false
  route_start_ts_ := 0
  cur_mono_time_ := 0
  max_seconds_ := 0
  events_ := []
  merged_segments_ := []
  flags_ := flags % 2 ^ 32
  speed_ := 1
  event_filter := none
  filter_opaque := 0
  segment_cache_limit := MIN_SEGMENTS_CACHE

/-- `inline bool isPaused() const { return user_paused_; }` -/
def isPaused (s : Replay) : Bool := s.user_paused_

/-- `installEventFilter(filter, opaque)`: stores both pointers; a null
`filter` is `none`. -/
def installEventFilter (s : Replay) (filter : Option replayEventFilter) (ctx : Nat) : Replay :=
  { s with filter_opaque := ctx, event_filter := filter }

/-- `inline int segmentCacheLimit() const { return segment_cache_limit; }` -/
def segmentCacheLimit (s : Replay) : Int := s.segment_cache_limit

/-- `setSegmentCacheLimit(n)`:
`segment_cache_limit = std::max(MIN_SEGMENTS_CACHE, n);` -/
def setSegmentCacheLimit (s : Replay) (n : Int) : Replay :=
  { s with segment_cache_limit := max MIN_SEGMENTS_CACHE n }

/-- `hasFlag(flag)`: `return flags_ & flag;` converted to `bool`. -/
def hasFlag (s : Replay) (flag : REPLAY_FLAGS) : Bool := (s.flags_ &&& flag.val) != 0

/-- `setLoop(loop)`:
`loop ? flags_ &= ~REPLAY_FLAG_NO_LOOP : flags_ |= REPLAY_FLAG_NO_LOOP;`
on a `uint32_t`: the complement of `0x10` in 32 bits is `2^32 - 1 - 0x10`. -/
def setLoop (s : Replay) (loop : Bool) : Replay :=
  if loop then { s with flags_ := s.flags_ &&& (2 ^ 32 - 1 - REPLAY_FLAG_NO_LOOP.val) }
  else { s with flags_ := (s.flags_ ||| REPLAY_FLAG_NO_LOOP.val) % 2 ^ 32 }

/-- `bool loop() const { return !(flags_ & REPLAY_FLAG_NO_LOOP); }` -/
def loop (s : Replay) : Bool := !((s.flags_ &&& REPLAY_FLAG_NO_LOOP.val) != 0)

/-- `routeStartNanos()`: `return route_start_ts_;` -/
def routeStartNanos (s : Replay) : Nat := s.route_start_ts_

/-- `toSeconds(mono_time)`: `return (mono_time - route_start_ts_) / 1e9;`
The subtraction is on `uint64_t`; the difference is converted to `double` and
divided in `double`. -/
def toSeconds (s : Replay) (mono_time : Nat) : ℚ :=
  divBy1e9 (u64ToDouble (subU64 mono_time s.route_start_ts_))

/-- `currentSeconds()`:
`return double(cur_mono_time_ - route_start_ts_) / 1e9;` -/
def currentSeconds (s : Replay) : ℚ :=
  divBy1e9 (u64ToDouble (subU64 s.cur_mono_time_ s.route_start_ts_))

/-- `minSeconds()`:
`return !segments_.empty() ? segments_.begin()->first * 60 : 0;`
The product is an `int` product; its conversion to `double` is exact. -/
def minSeconds (s : Replay) : Int :=
  match s.segments_.entries with
  | [] => 0
  | e :: _ => wrapInt32 (e.1 * 60)

/-- `inline double maxSeconds() const { return max_seconds_; }` -/
def maxSeconds (s : Replay) : ℚ := s.max_seconds_

/-- `inline void setSpeed(float speed) { speed_ = speed; }` -/
def setSpeed (s : Replay) (speed : ℚ) : Replay := { s with speed_ := speed }

/-- `inline float getSpeed() const { return speed_; }` -/
def getSpeed (s : Replay) : ℚ := s.speed_

/-- `isSegmentMerged(n)`: `return merged_segments_.count(n) > 0;` -/
def isSegmentMerged (s : Replay) (n : Int) : Bool := decide (n ∈ s.merged_segments_)

end Replay

/-- The mutating member functions whose bodies are in the header, as
commands a caller can issue. -/
inductive Command where
  | installEventFilter (filter : Option replayEventFilter) (ctx : Nat)
  | setSegmentCacheLimit (n : Int)
  | setLoop (loop : Bool)
  | setSpeed (speed : ℚ)

/-- Execute one command. -/
def Replay.exec (s : Replay) : Command → Replay
  | .installEventFilter f ctx => s.installEventFilter f ctx
  | .setSegmentCacheLimit n => s.setSegmentCacheLimit n
  | .setLoop b => s.setLoop b
  | .setSpeed x => s.setSpeed x

/-- Execute a sequence of commands, first to last. -/
def Replay.run (s : Replay) (cs : List Command) : Replay := cs.foldl Replay.exec s

/-! ## Merge and publish pipeline

`mergeSegments` and `publishEvents` are declared in the header; their bodies
are in a translation unit that is not part of the sources at hand. -/

/-- The Event order of the data model: by `monotonic_time`, ties broken by
`segment_index`. -/
def Event.le (a b : Event) : Prop :=
  a.monotonic_time < b.monotonic_time ∨
    (a.monotonic_time = b.monotonic_time ∧ a.segment_index ≤ b.segment_index)

instance Event.decLe (a b : Event) : Decidable (Event.le a b) := by
  unfold Event.le; infer_instance

/-- Positional insertion of one event into an ordered buffer: the event goes
after every buffered event that is not greater (arrival order on ties). -/
def insertEvent (e : Event) : List Event → List Event
  | [] => [e]
  | x :: xs => if Event.le x e then x :: insertEvent e xs else e :: x :: xs

/-- Positional splice of a run of events into an ordered buffer. -/
def spliceEvents (buf new : List Event) : List Event :=
  new.foldl (fun acc e => insertEvent e acc) buf

/-- The events of a run, sorted by the Event order (stable). -/
def sortEvents (l : List Event) : List Event := spliceEvents [] l

/-- The entries of the map between two iterators, given as positions. -/
def SegmentMap.range (m : SegmentMap) (b e : Nat) : List (Int × Option Segment) :=
  (m.entries.drop b).take (e - b)

/-- The segments of a run of entries that are loaded and not yet merged. -/
def freshSegments (merged : List Int) (r : List (Int × Option Segment)) : List Segment :=
  r.filterMap (fun p =>
    match p.2 with
    | some g => if g.load_state = LoadState.Loaded ∧ g.index ∉ merged then some g else none
    | none => none)

/-- Modelled from the spec: the body of `Replay::mergeSegments(begin, end)` is
missing. Spec 4.2: given a contiguous range of now-Loaded, not-yet-merged
segments, it produces the union of their events sorted by the Event order,
spliced into the existing event buffer at the correct position (insertion is
positional, not append-only), and marks each merged index in the merged set;
merged-set membership prevents a second insertion of the same segment. -/
def Replay.mergeSegments (s : Replay) (b e : Nat) : Replay :=
  let fresh := freshSegments s.merged_segments_ (s.segments_.range b e)
  { s with
    events_ := spliceEvents s.events_ (sortEvents (fresh.flatMap Segment.events)),
    merged_segments_ := s.merged_segments_ ++ fresh.map Segment.index }

/-- One step of the loading history: loader callbacks have changed the
segment map to `segs` (any map, so any completion order), then
`mergeSegments` runs on the range between positions `b` and `e`. -/
structure LoadStep where
  segs : SegmentMap
  b : Nat
  e : Nat

/-- Run a loading history, first step to last. -/
def Replay.mergeRun (s : Replay) (steps : List LoadStep) : Replay :=
  steps.foldl (fun acc st => Replay.mergeSegments { acc with segments_ := st.segs } st.b st.e) s

/-- What the publish path receives: an event on the message bus or on the
frame sink. -/
inductive Publication where
  | message (e : Event)
  | frame (e : Event)
  deriving DecidableEq, Repr

/-- The event carried by a publication. -/
def Publication.event : Publication → Event
  | .message e => e
  | .frame e => e

/-- Whether the installed filter drops the event: a null filter drops none. -/
def Replay.filtered (s : Replay) (e : Event) : Bool :=
  match s.event_filter with
  | some f => f e s.filter_opaque
  | none => false

/-- Modelled from the spec: the loop of `Replay::publishEvents` is missing.
Spec 4.2: for each event, if an installed filter callback returns true the
event is dropped; otherwise the event is routed to the message-bus path or to
the frame-sink path (`isCamera` tells which) and `current_mono_time` is
advanced to the event's timestamp. -/
def Replay.publishLoop (isCamera : Event → Bool) (s : Replay) :
    List Event → Replay × List Publication
  | [] => (s, [])
  | e :: es =>
    if s.filtered e then Replay.publishLoop isCamera s es
    else
      let r := Replay.publishLoop isCamera { s with cur_mono_time_ := e.monotonic_time } es
      (r.1, (if isCamera e then Publication.frame e else Publication.message e) :: r.2)

/-- The part of the buffer range between positions `first` and `last` that a
call processes when pacing stops it after `reach` events. -/
def Replay.processed (s : Replay) (first last reach : Nat) : List Event :=
  ((s.events_.drop first).take (last - first)).take reach

/-- Modelled from the spec: the body of `Replay::publishEvents(first, last)` is
missing. Spec 4.2: iterates the ordered buffer in the range; returns the
iterator actually reached (pacing may stop early: `reach` is the number of
events handled before the loop is stopped by a pause, seek or exit request).
The result is the new state, the publications in order, and the position
reached. -/
def Replay.publishEvents (s : Replay) (isCamera : Event → Bool) (reach first last : Nat) :
    Replay × List Publication × Nat :=
  let r := Replay.publishLoop isCamera s (s.processed first last reach)
  (r.1, r.2, first + (s.processed first last reach).length)

/-- The events handed to the publish path by a call, in order. -/
def Replay.publishedEvents (s : Replay) (isCamera : Event → Bool) (reach first last : Nat) :
    List Event :=
  (s.publishEvents isCamera reach first last).2.1.map Publication.event

/-- The position in an ordered buffer of the first event later than `now`. -/
def publishCursor (now : Nat) (buf : List Event) : Nat :=
  (buf.takeWhile (fun e => decide (e.monotonic_time ≤ now))).length

/-- Modelled from the spec: the body of `Replay::streamThread` is missing. The
state of the playing loop of spec 4.3: the engine, the publish cursor into the
event buffer, and the events handed to the publish path so far, in order. -/
structure StreamState where
  engine : Replay
  cursor : Nat
  handed : List Event

/-- What can happen to a playing stream: a load completion followed by
`mergeSegments`, a `publishEvents` call on the next unpublished slice, or a
call of a mutating member function of the header. -/
inductive StreamStep where
  | load (segs : SegmentMap) (b e : Nat)
  | publish (isCamera : Event → Bool) (reach last : Nat)
  | command (c : Command)

/-- Modelled from the spec: one step of the playing loop of spec 4.3, whose
code is missing. The loop "repeatedly takes the next unpublished slice of the
event buffer and calls `publishEvents`": the slice starts at the cursor and
the cursor moves to the iterator `publishEvents` returns. A merge inserts
events positionally, so after it the cursor is found again from the playback
position: `publishEvents` advances `current_mono_time` to the timestamp of each
event it hands over, and the unpublished part of the rebuilt buffer starts at
the first event later than that time. -/
def StreamState.step (st : StreamState) : StreamStep → StreamState
  | .load segs b e =>
    { engine := Replay.mergeSegments { st.engine with segments_ := segs } b e
      cursor := publishCursor st.engine.cur_mono_time_
        (Replay.mergeSegments { st.engine with segments_ := segs } b e).events_
      handed := st.handed }
  | .publish isCamera reach last =>
    { engine := (st.engine.publishEvents isCamera reach st.cursor last).1
      cursor := (st.engine.publishEvents isCamera reach st.cursor last).2.2
      handed := st.handed ++ st.engine.publishedEvents isCamera reach st.cursor last }
  | .command c => { st with engine := st.engine.exec c }

/-- Run a history of steps, first to last. -/
def StreamState.run (st : StreamState) (steps : List StreamStep) : StreamState :=
  steps.foldl StreamState.step st

/-- The stream of a freshly constructed engine: nothing buffered, nothing
handed over. -/
def StreamState.start (flags : Nat) : StreamState := ⟨Replay.construct flags, 0, []⟩

/-- The invariant of a playing stream: the buffer is sorted, the events handed
over so far are in timestamp order and not later than the current time, and
every event from the cursor on is not earlier than the current time. -/
def StreamState.Ordered (st : StreamState) : Prop :=
  st.engine.events_.Pairwise Event.le ∧
  st.handed.Pairwise (fun a b => a.monotonic_time ≤ b.monotonic_time) ∧
  (∀ e ∈ st.handed, e.monotonic_time ≤ st.engine.cur_mono_time_) ∧
  (∀ e ∈ st.engine.events_.drop st.cursor, st.engine.cur_mono_time_ ≤ e.monotonic_time)

/-! ## Sample states -/

/-- A loaded segment with the given index and no events. -/
def loadedSegment (i : Int) : Segment := ⟨i, LoadState.Loaded, []⟩

/-- Seven resident segments, indexed 0 to 6. -/
def sevenSegments : SegmentMap :=
  ⟨[(0, some (loadedSegment 0)), (1, some (loadedSegment 1)), (2, some (loadedSegment 2)),
    (3, some (loadedSegment 3)), (4, some (loadedSegment 4)), (5, some (loadedSegment 5)),
    (6, some (loadedSegment 6))], by decide⟩

/-- A state with cache limit 7 and seven resident segments. -/
def sevenResident : Replay :=
  { (Replay.construct 0).setSegmentCacheLimit 7 with segments_ := sevenSegments }

/-- Three resident segments, indexed 0, 1, 2. -/
def threeSegments : SegmentMap :=
  ⟨[(0, some (loadedSegment 0)), (1, some (loadedSegment 1)), (2, some (loadedSegment 2))],
    by decide⟩

/-- A loaded route of three segments. -/
def threeResident : Replay := { Replay.construct 0 with segments_ := threeSegments }

/-- Three buffered events, the middle one on channel X. -/
def sampleEvents : List Event :=
  [⟨10, "can", [], 0⟩, ⟨20, "X", [], 0⟩, ⟨30, "can", [], 0⟩]

/-- A fresh engine whose buffer holds the three sample events. -/
def sampleStream : Replay := { Replay.construct 0 with events_ := sampleEvents }

/-- A filter that drops channel X. -/
def dropX : replayEventFilter := fun e _ => e.channel == "X"

/-- Segment 0 and segment 1 of a route, both loaded, one minute of events each. -/
def twoLoaded : SegmentMap :=
  ⟨[(0, some ⟨0, LoadState.Loaded, [⟨10, "can", [], 0⟩, ⟨20, "X", [], 0⟩]⟩),
    (1, some ⟨1, LoadState.Loaded, [⟨70, "can", [], 1⟩, ⟨80, "can", [], 1⟩]⟩)], by decide⟩

/-- The state after segment 1 finished loading first and was merged alone. -/
def lateFirst : Replay :=
  Replay.mergeSegments { Replay.construct 0 with segments_ := twoLoaded } 1 2

/-- An engine constructed with the dual camera and no-loop options. -/
def dcamNoLoop : Replay := Replay.construct (orFlags [REPLAY_FLAG_DCAM, REPLAY_FLAG_NO_LOOP])

/-- An engine whose route starts one second after the zero of the clock. -/
def lateStart : Replay := { Replay.construct 0 with route_start_ts_ := 1000000000 }

/-- A map whose only segment has index 35791395. -/
def farSegment : SegmentMap := ⟨[(35791395, some (loadedSegment 35791395))], by decide⟩

/-- An engine whose only resident segment has index 35791395. -/
def farResident : Replay := { Replay.construct 0 with segments_ := farSegment }

/-- A history in which segment 1 finishes loading first: it is merged and its
first event handed over, then segment 0 is merged, then publishing goes on. -/
def lateFirstHistory : List StreamStep :=
  [StreamStep.load twoLoaded 1 2, StreamStep.publish (fun _ => false) 1 2,
   StreamStep.load twoLoaded 0 2, StreamStep.publish (fun _ => false) 4 4]

/-! ## Cache limit -/

theorem Replay.limit_floor_exec (s : Replay) (c : Command)
    (h : MIN_SEGMENTS_CACHE ≤ s.segment_cache_limit) :
    MIN_SEGMENTS_CACHE ≤ (s.exec c).segment_cache_limit := by
  cases c with
  | installEventFilter f ctx => exact h
  | setSegmentCacheLimit n => exact le_max_left _ _
  | setLoop b =>
    cases b <;> exact h
  | setSpeed x => exact h

theorem Replay.limit_floor_run (cs : List Command) (s : Replay)
    (h : MIN_SEGMENTS_CACHE ≤ s.segment_cache_limit) :
    MIN_SEGMENTS_CACHE ≤ (s.run cs).segment_cache_limit := by
  induction cs generalizing s with
  | nil => exact h
  | cons c cs ih => exact ih (s.exec c) (Replay.limit_floor_exec s c h)

/-- C1: after `setSegmentCacheLimit(n)` the query `segmentCacheLimit()`
returns `max(5, n)` for every integer `n`; the constructed value is 5; and in
every state reached from construction by any sequence of the header's mutating
calls `segmentCacheLimit() >= 5`. -/
theorem C1_segmentCacheLimit_clamped :
    (∀ (s : Replay) (n : Int), (s.setSegmentCacheLimit n).segmentCacheLimit = max 5 n) ∧
    (∀ flags : Nat, (Replay.construct flags).segmentCacheLimit = 5) ∧
    (∀ (flags : Nat) (cs : List Command),
      5 ≤ ((Replay.construct flags).run cs).segmentCacheLimit) := by
  refine ⟨fun s n => rfl, fun flags => rfl, fun flags cs => ?_⟩
  exact Replay.limit_floor_run cs (Replay.construct flags) (le_refl _)

/-! ## Window bound -/

/-- C2, as stated, fails: with seven resident segments under limit 7 the bound
holds, and after `setSegmentCacheLimit(5)` the limit is 5 while the same seven
segments are still resident. -/
theorem C2_window_bound_counterexample :
    (sevenResident.segments_.resident : Int) ≤ sevenResident.segmentCacheLimit ∧
    (sevenResident.setSegmentCacheLimit 5).segmentCacheLimit = 5 ∧
    (sevenResident.setSegmentCacheLimit 5).segments_.resident = 7 ∧
    ¬ (((sevenResident.setSegmentCacheLimit 5).segments_.resident : Int) ≤
        (sevenResident.setSegmentCacheLimit 5).segmentCacheLimit) := by
  decide

/-- C2 (amended): `setSegmentCacheLimit(n)` sets the limit to `max(5, n)` and
leaves the segment map as it is (it evicts nothing); so the bound
`resident <= segmentCacheLimit()` holds after the call exactly when the number
of resident segments is at most `max(5, n)`, in particular whenever it held
before and `n` is not below the old limit; the other mutating calls of the
header change neither the map nor the limit. -/
theorem C2_setSegmentCacheLimit_keeps_map (s : Replay) (n : Int) :
    (s.setSegmentCacheLimit n).segments_.entries = s.segments_.entries ∧
    (((s.setSegmentCacheLimit n).segments_.resident : Int) ≤
        (s.setSegmentCacheLimit n).segmentCacheLimit ↔
      (s.segments_.resident : Int) ≤ max 5 n) ∧
    ((s.segments_.resident : Int) ≤ s.segmentCacheLimit → s.segmentCacheLimit ≤ n →
      ((s.setSegmentCacheLimit n).segments_.resident : Int) ≤
        (s.setSegmentCacheLimit n).segmentCacheLimit) ∧
    (∀ c : Command, (∀ k, c ≠ Command.setSegmentCacheLimit k) →
      (s.exec c).segments_.entries = s.segments_.entries ∧
      (s.exec c).segmentCacheLimit = s.segmentCacheLimit) := by
  refine ⟨rfl, Iff.rfl, ?_, ?_⟩
  · intro h1 h2
    show (s.segments_.resident : Int) ≤ max MIN_SEGMENTS_CACHE n
    exact le_trans (le_trans h1 h2) (le_max_right _ _)
  · intro c hc
    cases c with
    | installEventFilter f ctx => exact ⟨rfl, rfl⟩
    | setSegmentCacheLimit k => exact absurd rfl (hc k)
    | setLoop b => cases b <;> exact ⟨rfl, rfl⟩
    | setSpeed x => exact ⟨rfl, rfl⟩

/-- Witness for C2 (amended): seven resident segments under limit 7, raised to 9. -/
theorem C2_setSegmentCacheLimit_keeps_map_witness :
    ((sevenResident.segments_.resident : Int) ≤ sevenResident.segmentCacheLimit ∧
      sevenResident.segmentCacheLimit ≤ 9) ∧
    ((sevenResident.setSegmentCacheLimit 9).segments_.resident : Int) ≤
      (sevenResident.setSegmentCacheLimit 9).segmentCacheLimit :=
  ⟨by decide,
   (C2_setSegmentCacheLimit_keeps_map sevenResident 9).2.2.1 (by decide) (by decide)⟩

/-! ## Speed -/

theorem Replay.speed_pos_exec (s : Replay) (c : Command)
    (hc : ∀ x, c = Command.setSpeed x → 0 < x) (h : 0 < s.speed_) :
    0 < (s.exec c).speed_ := by
  cases c with
  | installEventFilter f ctx => exact h
  | setSegmentCacheLimit n => exact h
  | setLoop b => cases b <;> exact h
  | setSpeed x => exact hc x rfl

theorem Replay.speed_pos_run (cs : List Command) (s : Replay)
    (hcs : ∀ x, Command.setSpeed x ∈ cs → 0 < x) (h : 0 < s.speed_) :
    0 < (s.run cs).speed_ := by
  induction cs generalizing s with
  | nil => exact h
  | cons c cs ih =>
    refine ih (s.exec c) (fun x hx => hcs x (List.mem_cons_of_mem _ hx)) ?_
    exact Replay.speed_pos_exec s c (fun x hx => hcs x (hx ▸ List.mem_cons_self _ _)) h

/-- C3, as stated, fails: `setSpeed` stores its argument unchecked, so after
`setSpeed(0)` on a fresh engine `getSpeed()` is 0, and after `setSpeed(-1)` it
is negative. -/
theorem C3_speed_positive_counterexample :
    ¬ (0 < ((Replay.construct 0).run [Command.setSpeed 0]).getSpeed) ∧
    ((Replay.construct 0).run [Command.setSpeed (-1)]).getSpeed < 0 := by
  constructor
  · show ¬ ((0 : ℚ) < 0)
    exact lt_irrefl _
  · show ((-1 : ℚ) < 0)
    norm_num

/-- C3 (amended): in every state reached from construction by a sequence of
calls in which every `setSpeed` argument is strictly positive,
`getSpeed() > 0`; the constructed speed is 1. -/
theorem C3_speed_positive_for_positive_arguments (flags : Nat) (cs : List Command)
    (hcs : ∀ x, Command.setSpeed x ∈ cs → 0 < x) :
    (Replay.construct flags).getSpeed = 1 ∧ 0 < ((Replay.construct flags).run cs).getSpeed := by
  refine ⟨rfl, ?_⟩
  refine Replay.speed_pos_run cs (Replay.construct flags) hcs ?_
  show (0 : ℚ) < 1
  exact one_pos

/-- Witness for C3 (amended): two speed changes, to 2 and then to 1/2. -/
theorem C3_speed_positive_for_positive_arguments_witness :
    (Replay.construct 0).getSpeed = 1 ∧
    0 < ((Replay.construct 0).run [Command.setSpeed 2, Command.setSpeed (1 / 2)]).getSpeed :=
  C3_speed_positive_for_positive_arguments 0 [Command.setSpeed 2, Command.setSpeed (1 / 2)]
    (by
      intro x hx
      simp only [List.mem_cons, Command.setSpeed.injEq, List.mem_singleton, List.not_mem_nil,
        or_false] at hx
      rcases hx with h | h <;> rw [h] <;> norm_num)

/-- C5: `setSpeed(s)` makes `getSpeed()` return `s` and leaves the pending
seek target, both pause flags, the current time, the cache limit, the flags and
every other field of the state unchanged. -/
theorem C5_setSpeed_frame (s : Replay) (x : ℚ) :
    (s.setSpeed x).getSpeed = x ∧
    (s.setSpeed x).seeking_to_ = s.seeking_to_ ∧
    (s.setSpeed x).user_paused_ = s.user_paused_ ∧
    (s.setSpeed x).paused_ = s.paused_ ∧
    (s.setSpeed x).isPaused = s.isPaused ∧
    (s.setSpeed x).cur_mono_time_ = s.cur_mono_time_ ∧
    (s.setSpeed x).currentSeconds = s.currentSeconds ∧
    (s.setSpeed x).segmentCacheLimit = s.segmentCacheLimit ∧
    (s.setSpeed x).flags_ = s.flags_ ∧
    s.setSpeed x = { s with speed_ := x } :=
  ⟨rfl, rfl, rfl, rfl, rfl, rfl, rfl, rfl, rfl, rfl⟩

/-! ## Playable range -/

theorem wrapInt32_of_fits (x : Int) (h1 : -2147483648 ≤ x) (h2 : x ≤ 2147483647) :
    wrapInt32 x = x := by
  unfold wrapInt32
  omega

theorem SegmentMap.head_le_keys (m : SegmentMap) (e : Int × Option Segment)
    (es : List (Int × Option Segment)) (h : m.entries = e :: es) :
    ∀ k ∈ m.keys, e.1 ≤ k := by
  intro k hk
  have hp := m.ordered
  rw [h] at hp
  unfold SegmentMap.keys at hk
  rw [h, List.map_cons, List.mem_cons] at hk
  rcases hk with hk | hk
  · exact le_of_eq hk.symm
  · obtain ⟨p, hp1, hp2⟩ := List.mem_map.mp hk
    exact hp2 ▸ le_of_lt (List.rel_of_pairwise_cons hp hp1)

/-- C4, as stated, fails: the product `first * 60` is a 32-bit `int` product.
With the single index 35791395 in the map, `minSeconds()` is `-2147483596`, not
`60 * 35791395`. -/
theorem C4_minSeconds_counterexample :
    farResident.segments_.keys = [35791395] ∧
    farResident.minSeconds = -2147483596 ∧
    farResident.minSeconds ≠ 60 * 35791395 := by
  decide

/-- C4 (amended): `minSeconds()` is 0 on an empty segment map; on a non-empty
map whose smallest index `k0` satisfies `-35791394 <= k0 <= 35791394` (the
range in which `k0 * 60` fits a 32-bit `int`) it is `60 * k0`, and then it is at
most `60 * k` for every index `k` present; for a map with indices 0, 1, 2 it
is 0. -/
theorem C4_minSeconds (s : Replay) :
    (s.segments_.keys = [] → s.minSeconds = 0) ∧
    (∀ k0 : Int, k0 ∈ s.segments_.keys → (∀ k ∈ s.segments_.keys, k0 ≤ k) →
      -35791394 ≤ k0 → k0 ≤ 35791394 →
      s.minSeconds = 60 * k0 ∧ ∀ k ∈ s.segments_.keys, s.minSeconds ≤ 60 * k) ∧
    (s.segments_.keys = [0, 1, 2] → s.minSeconds = 0) := by
  refine ⟨?_, ?_, ?_⟩
  · intro h
    unfold SegmentMap.keys at h
    unfold Replay.minSeconds
    rw [List.map_eq_nil_iff.mp h]
  · intro k0 hk0 hmin hlo hhi
    cases hent : s.segments_.entries with
    | nil =>
      unfold SegmentMap.keys at hk0
      rw [hent] at hk0
      exact absurd hk0 (List.not_mem_nil _)
    | cons e es =>
      have hhead := SegmentMap.head_le_keys s.segments_ e es hent
      have hmem : e.1 ∈ s.segments_.keys := by
        unfold SegmentMap.keys
        rw [hent]
        exact List.mem_cons_self _ _
      have heq : e.1 = k0 := le_antisymm (hhead k0 hk0) (hmin e.1 hmem)
      have hval : s.minSeconds = 60 * k0 := by
        unfold Replay.minSeconds
        rw [hent]
        show wrapInt32 (e.1 * 60) = 60 * k0
        rw [heq, wrapInt32_of_fits (k0 * 60) (by omega) (by omega)]
        ring
      refine ⟨hval, fun k hk => ?_⟩
      rw [hval]
      have := hmin k hk
      omega
  · intro h
    cases hent : s.segments_.entries with
    | nil =>
      unfold SegmentMap.keys at h
      rw [hent] at h
      exact absurd h (by simp)
    | cons e es =>
      unfold SegmentMap.keys at h
      rw [hent, List.map_cons] at h
      have he : e.1 = 0 := (List.cons.inj h).1
      unfold Replay.minSeconds
      rw [hent]
      show wrapInt32 (e.1 * 60) = 0
      rw [he]
      rfl

/-- Witness for C4 (amended): a loaded route with segments 0, 1, 2. -/
theorem C4_minSeconds_witness :
    threeResident.segments_.keys = [0, 1, 2] ∧ threeResident.minSeconds = 0 ∧
    threeResident.minSeconds = 60 * 0 ∧ threeResident.minSeconds ≤ 60 * 2 :=
  ⟨by decide, (C4_minSeconds threeResident).2.2 (by decide),
   ((C4_minSeconds threeResident).2.1 0 (by decide) (by decide) (by decide) (by decide)).1,
   ((C4_minSeconds threeResident).2.1 0 (by decide) (by decide) (by decide) (by decide)).2 2
     (by decide)⟩

/-! ## Publish path -/

theorem Replay.publishLoop_events (isCamera : Event → Bool) (es : List Event) (s : Replay) :
    (Replay.publishLoop isCamera s es).2.map Publication.event =
      es.filter (fun e => !s.filtered e) := by
  induction es generalizing s with
  | nil => rfl
  | cons e es ih =>
    unfold Replay.publishLoop
    by_cases h : s.filtered e = true
    · rw [if_pos h, ih s, List.filter_cons_of_neg (by simp [h])]
    · rw [if_neg h, List.filter_cons_of_pos (by simp [h])]
      have hx := ih { s with cur_mono_time_ := e.monotonic_time }
      simp only [List.map_cons]
      rw [hx]
      congr 1
      cases isCamera e <;> rfl

theorem Replay.publishedEvents_eq (s : Replay) (isCamera : Event → Bool)
    (reach first last : Nat) :
    s.publishedEvents isCamera reach first last =
      (s.processed first last reach).filter (fun e => !s.filtered e) :=
  Replay.publishLoop_events isCamera (s.processed first last reach) s

/-- C6: with a filter `f` installed by `installEventFilter(f, ctx)`, the events
`publishEvents` hands to the publish path are exactly the processed events of
the range on which `f` returns false, in order: no event on which `f` returns
true is published, every processed event on which it returns false is
published. With no filter installed (the constructed state) every processed
event is published. A call that is not stopped early processes the whole
range. -/
theorem C6_filter_contract (s : Replay) (isCamera : Event → Bool) (reach first last : Nat) :
    (∀ (f : replayEventFilter) (ctx : Nat),
      (s.installEventFilter (some f) ctx).publishedEvents isCamera reach first last =
        (s.processed first last reach).filter (fun e => !f e ctx) ∧
      (∀ e, f e ctx = true →
        e ∉ (s.installEventFilter (some f) ctx).publishedEvents isCamera reach first last) ∧
      (∀ e ∈ s.processed first last reach, f e ctx = false →
        e ∈ (s.installEventFilter (some f) ctx).publishedEvents isCamera reach first last)) ∧
    (s.event_filter = none →
      s.publishedEvents isCamera reach first last = s.processed first last reach) ∧
    (∀ flags : Nat, (Replay.construct flags).event_filter = none) ∧
    (last - first ≤ reach →
      s.processed first last reach = (s.events_.drop first).take (last - first)) := by
  refine ⟨fun f ctx => ?_, ?_, fun _ => rfl, ?_⟩
  · have hpub : (s.installEventFilter (some f) ctx).publishedEvents isCamera reach first last =
        (s.processed first last reach).filter (fun e => !f e ctx) :=
      Replay.publishedEvents_eq (s.installEventFilter (some f) ctx) isCamera reach first last
    refine ⟨hpub, ?_, ?_⟩
    · intro e he hmem
      rw [hpub] at hmem
      have := (List.mem_filter.mp hmem).2
      simp [he] at this
    · intro e he hf
      rw [hpub]
      exact List.mem_filter.mpr ⟨he, by simp [hf]⟩
  · intro hnone
    rw [Replay.publishedEvents_eq]
    have hf : ∀ e, s.filtered e = false := by
      intro e
      unfold Replay.filtered
      rw [hnone]
    simp [hf]
  · intro h
    unfold Replay.processed
    apply List.take_of_length_le
    exact le_trans (List.length_take_le _ _) h

/-- Witness for C6: three buffered events, a filter on channel X, the whole
range processed. -/
theorem C6_filter_contract_witness :
    (dropX ⟨20, "X", [], 0⟩ 0 = true ∧
      (⟨20, "X", [], 0⟩ : Event) ∉
        (sampleStream.installEventFilter (some dropX) 0).publishedEvents (fun _ => false) 3 0 3) ∧
    ((⟨10, "can", [], 0⟩ : Event) ∈ sampleStream.processed 0 3 3 ∧
      dropX ⟨10, "can", [], 0⟩ 0 = false ∧
      (⟨10, "can", [], 0⟩ : Event) ∈
        (sampleStream.installEventFilter (some dropX) 0).publishedEvents (fun _ => false) 3 0 3) ∧
    (sampleStream.event_filter = none ∧
      sampleStream.publishedEvents (fun _ => false) 3 0 3 = sampleStream.processed 0 3 3) ∧
    (3 - 0 ≤ 3 ∧ sampleStream.processed 0 3 3 = (sampleStream.events_.drop 0).take (3 - 0)) :=
  ⟨⟨by decide,
    ((C6_filter_contract sampleStream (fun _ => false) 3 0 3).1 dropX 0).2.1 _ (by decide)⟩,
   ⟨by decide, by decide,
    ((C6_filter_contract sampleStream (fun _ => false) 3 0 3).1 dropX 0).2.2 _
      (by decide) (by decide)⟩,
   ⟨rfl, (C6_filter_contract sampleStream (fun _ => false) 3 0 3).2.1 rfl⟩,
   ⟨by decide, (C6_filter_contract sampleStream (fun _ => false) 3 0 3).2.2.2 (by decide)⟩⟩

/-! ## Event order -/

theorem Event.le_total (a b : Event) : Event.le a b ∨ Event.le b a := by
  unfold Event.le
  omega

theorem Event.le_trans {a b c : Event} (h1 : Event.le a b) (h2 : Event.le b c) :
    Event.le a c := by
  unfold Event.le at *
  omega

theorem Event.time_le_of_le {a b : Event} (h : Event.le a b) :
    a.monotonic_time ≤ b.monotonic_time := by
  unfold Event.le at h
  omega

theorem mem_insertEvent (e x : Event) (l : List Event) :
    x ∈ insertEvent e l ↔ x = e ∨ x ∈ l := by
  induction l with
  | nil => simp [insertEvent]
  | cons y ys ih =>
    unfold insertEvent
    by_cases h : Event.le y e
    · rw [if_pos h, List.mem_cons, ih, List.mem_cons]
      tauto
    · rw [if_neg h, List.mem_cons]

theorem insertEvent_sorted (e : Event) (l : List Event) (h : l.Pairwise Event.le) :
    (insertEvent e l).Pairwise Event.le := by
  induction l with
  | nil => simp [insertEvent]
  | cons y ys ih =>
    unfold insertEvent
    have hy := List.pairwise_cons.mp h
    by_cases hle : Event.le y e
    · rw [if_pos hle]
      refine List.pairwise_cons.mpr ⟨fun x hx => ?_, ih hy.2⟩
      rcases (mem_insertEvent e x ys).mp hx with hx | hx
      · exact hx ▸ hle
      · exact hy.1 x hx
    · rw [if_neg hle]
      have hey : Event.le e y := (Event.le_total e y).resolve_right hle
      refine List.pairwise_cons.mpr ⟨fun x hx => ?_, h⟩
      rcases List.mem_cons.mp hx with hx | hx
      · exact hx ▸ hey
      · exact Event.le_trans hey (hy.1 x hx)

theorem spliceEvents_sorted (new buf : List Event) (h : buf.Pairwise Event.le) :
    (spliceEvents buf new).Pairwise Event.le := by
  induction new generalizing buf with
  | nil => exact h
  | cons e es ih => exact ih (insertEvent e buf) (insertEvent_sorted e buf h)

theorem Replay.mergeSegments_sorted (s : Replay) (b e : Nat)
    (h : s.events_.Pairwise Event.le) : (s.mergeSegments b e).events_.Pairwise Event.le :=
  spliceEvents_sorted _ _ h

theorem Replay.mergeRun_sorted (steps : List LoadStep) (s : Replay)
    (h : s.events_.Pairwise Event.le) : (s.mergeRun steps).events_.Pairwise Event.le := by
  induction steps generalizing s with
  | nil => exact h
  | cons st sts ih =>
    exact ih _ (Replay.mergeSegments_sorted { s with segments_ := st.segs } st.b st.e h)

theorem Replay.published_sorted (s : Replay) (isCamera : Event → Bool) (reach first last : Nat)
    (h : s.events_.Pairwise Event.le) :
    (s.publishedEvents isCamera reach first last).Pairwise
      (fun a b => a.monotonic_time ≤ b.monotonic_time) := by
  rw [Replay.publishedEvents_eq]
  have hsub : List.Sublist
      ((s.processed first last reach).filter (fun e => !s.filtered e)) s.events_ :=
    (List.filter_sublist _).trans
      ((List.take_sublist _ _).trans ((List.take_sublist _ _).trans (List.drop_sublist _ _)))
  exact (h.sublist hsub).imp (fun hab => Event.time_le_of_le hab)

theorem Replay.publishLoop_buffer (isCamera : Event → Bool) (es : List Event) (s : Replay) :
    (Replay.publishLoop isCamera s es).1.events_ = s.events_ := by
  induction es generalizing s with
  | nil => rfl
  | cons e es ih =>
    unfold Replay.publishLoop
    by_cases h : s.filtered e = true
    · rw [if_pos h]
      exact ih s
    · rw [if_neg h]
      exact ih { s with cur_mono_time_ := e.monotonic_time }

theorem Replay.publishLoop_time (isCamera : Event → Bool) (es : List Event) (s : Replay)
    (hs : es.Pairwise (fun a b => a.monotonic_time ≤ b.monotonic_time))
    (hge : ∀ e ∈ es, s.cur_mono_time_ ≤ e.monotonic_time) :
    s.cur_mono_time_ ≤ (Replay.publishLoop isCamera s es).1.cur_mono_time_ ∧
    (∀ p ∈ (Replay.publishLoop isCamera s es).2,
      p.event.monotonic_time ≤ (Replay.publishLoop isCamera s es).1.cur_mono_time_) ∧
    ((Replay.publishLoop isCamera s es).1.cur_mono_time_ = s.cur_mono_time_ ∨
      ∃ e ∈ es, (Replay.publishLoop isCamera s es).1.cur_mono_time_ = e.monotonic_time) := by
  induction es generalizing s with
  | nil =>
    refine ⟨le_refl _, ?_, Or.inl rfl⟩
    intro p hp
    exact absurd hp (List.not_mem_nil _)
  | cons e es ih =>
    have hp := List.pairwise_cons.mp hs
    unfold Replay.publishLoop
    by_cases h : s.filtered e = true
    · rw [if_pos h]
      obtain ⟨a, b, c⟩ := ih s hp.2 (fun x hx => hge x (List.mem_cons_of_mem _ hx))
      refine ⟨a, b, ?_⟩
      rcases c with c | ⟨x, hx, c⟩
      · exact Or.inl c
      · exact Or.inr ⟨x, List.mem_cons_of_mem _ hx, c⟩
    · rw [if_neg h]
      obtain ⟨a, b, c⟩ := ih { s with cur_mono_time_ := e.monotonic_time } hp.2
        (fun x hx => hp.1 x hx)
      have hse : s.cur_mono_time_ ≤ e.monotonic_time := hge e (List.mem_cons_self _ _)
      refine ⟨le_trans hse a, ?_, ?_⟩
      · intro p hmem
        rcases List.mem_cons.mp hmem with hpe | hmem
        · have hev : p.event = e := by
            rw [hpe]
            cases isCamera e <;> rfl
          rw [hev]
          exact a
        · exact b p hmem
      · rcases c with c | ⟨x, hx, c⟩
        · exact Or.inr ⟨e, List.mem_cons_self _ _, c⟩
        · exact Or.inr ⟨x, List.mem_cons_of_mem _ hx, c⟩

theorem dropWhile_later (now : Nat) (l : List Event)
    (hs : l.Pairwise (fun a b => a.monotonic_time ≤ b.monotonic_time)) :
    ∀ e ∈ l.dropWhile (fun e => decide (e.monotonic_time ≤ now)), now ≤ e.monotonic_time := by
  induction l with
  | nil =>
    intro e he
    exact absurd he (List.not_mem_nil _)
  | cons x xs ih =>
    have hp := List.pairwise_cons.mp hs
    by_cases h : x.monotonic_time ≤ now
    · rw [List.dropWhile_cons_of_pos (by simpa using h)]
      exact ih hp.2
    · rw [List.dropWhile_cons_of_neg (by simpa using h)]
      intro e he
      rcases List.mem_cons.mp he with he | he
      · rw [he]
        omega
      · have := hp.1 e he
        omega

theorem publishCursor_later (now : Nat) (l : List Event)
    (hs : l.Pairwise (fun a b => a.monotonic_time ≤ b.monotonic_time)) :
    ∀ e ∈ l.drop (publishCursor now l), now ≤ e.monotonic_time := by
  have hsplit := List.takeWhile_append_dropWhile (fun e => decide (e.monotonic_time ≤ now)) l
  have hdrop : l.drop (publishCursor now l) =
      l.dropWhile (fun e => decide (e.monotonic_time ≤ now)) := by
    unfold publishCursor
    conv_lhs => rw [← hsplit]
    rw [List.takeWhile_append_dropWhile]
    conv_lhs => arg 2; rw [← hsplit]
    exact List.drop_left _ _
  rw [hdrop]
  exact dropWhile_later now l hs

theorem prefix_le_suffix (m : Nat) (l : List Event)
    (hs : l.Pairwise (fun a b => a.monotonic_time ≤ b.monotonic_time)) :
    ∀ a ∈ l.take m, ∀ b ∈ l.drop (l.take m).length, a.monotonic_time ≤ b.monotonic_time := by
  have hsplit := List.take_append_drop m l
  have hdrop : l.drop (l.take m).length = l.drop m := by
    conv_lhs => arg 2; rw [← hsplit]
    exact List.drop_left _ _
  rw [hdrop]
  rw [← hsplit] at hs
  exact (List.pairwise_append.mp hs).2.2

theorem Replay.exec_buffer (s : Replay) (c : Command) :
    (s.exec c).events_ = s.events_ ∧ (s.exec c).cur_mono_time_ = s.cur_mono_time_ := by
  cases c with
  | installEventFilter f ctx => exact ⟨rfl, rfl⟩
  | setSegmentCacheLimit n => exact ⟨rfl, rfl⟩
  | setLoop b => cases b <;> exact ⟨rfl, rfl⟩
  | setSpeed x => exact ⟨rfl, rfl⟩

theorem StreamState.step_ordered (st : StreamState) (x : StreamStep) (h : st.Ordered) :
    (st.step x).Ordered := by
  obtain ⟨h1, h2, h3, h4⟩ := h
  have h1t : st.engine.events_.Pairwise (fun a b => a.monotonic_time ≤ b.monotonic_time) :=
    h1.imp (fun hab => Event.time_le_of_le hab)
  cases x with
  | load segs b e =>
    have hsorted : (Replay.mergeSegments { st.engine with segments_ := segs } b e).events_.Pairwise
        Event.le := Replay.mergeSegments_sorted _ b e h1
    refine ⟨hsorted, h2, h3, ?_⟩
    exact publishCursor_later _ _ (hsorted.imp (fun hab => Event.time_le_of_le hab))
  | publish isCamera reach last =>
    have hP : st.engine.processed st.cursor last reach =
        (st.engine.events_.drop st.cursor).take (min reach (last - st.cursor)) := by
      unfold Replay.processed
      rw [List.take_take]
    have hLs : (st.engine.events_.drop st.cursor).Pairwise
        (fun a b => a.monotonic_time ≤ b.monotonic_time) :=
      h1t.sublist (List.drop_sublist _ _)
    have hPs : (st.engine.processed st.cursor last reach).Pairwise
        (fun a b => a.monotonic_time ≤ b.monotonic_time) := by
      rw [hP]
      exact hLs.sublist (List.take_sublist _ _)
    have hPmem : ∀ e ∈ st.engine.processed st.cursor last reach,
        e ∈ st.engine.events_.drop st.cursor := by
      intro e he
      rw [hP] at he
      exact List.mem_of_mem_take he
    obtain ⟨t1, t2, t3⟩ := Replay.publishLoop_time isCamera
      (st.engine.processed st.cursor last reach) st.engine hPs
      (fun e he => h4 e (hPmem e he))
    have hpubmem : ∀ e ∈ st.engine.publishedEvents isCamera reach st.cursor last,
        e ∈ st.engine.processed st.cursor last reach := by
      intro e he
      rw [Replay.publishedEvents_eq] at he
      exact (List.mem_filter.mp he).1
    refine ⟨?_, ?_, ?_, ?_⟩
    · show (Replay.publishLoop isCamera st.engine
        (st.engine.processed st.cursor last reach)).1.events_.Pairwise Event.le
      rw [Replay.publishLoop_buffer]
      exact h1
    · show (st.handed ++ st.engine.publishedEvents isCamera reach st.cursor last).Pairwise _
      refine List.pairwise_append.mpr
        ⟨h2, Replay.published_sorted st.engine isCamera reach st.cursor last h1, ?_⟩
      intro a ha b hb
      exact le_trans (h3 a ha) (h4 b (hPmem b (hpubmem b hb)))
    · intro e he
      show e.monotonic_time ≤ (Replay.publishLoop isCamera st.engine
        (st.engine.processed st.cursor last reach)).1.cur_mono_time_
      have he2 : e ∈ st.handed ++ st.engine.publishedEvents isCamera reach st.cursor last := he
      rcases List.mem_append.mp he2 with he3 | he3
      · exact le_trans (h3 e he3) t1
      · obtain ⟨p, hp, hpe⟩ := List.mem_map.mp he3
        rw [← hpe]
        exact t2 p hp
    · intro e he
      show (Replay.publishLoop isCamera st.engine
        (st.engine.processed st.cursor last reach)).1.cur_mono_time_ ≤ e.monotonic_time
      have he2 : e ∈ (Replay.publishLoop isCamera st.engine
          (st.engine.processed st.cursor last reach)).1.events_.drop
          (st.cursor + (st.engine.processed st.cursor last reach).length) := he
      rw [Replay.publishLoop_buffer, ← List.drop_drop] at he2
      rcases t3 with t3 | ⟨y, hy, t3⟩
      · rw [t3]
        exact h4 e (List.mem_of_mem_drop he2)
      · rw [t3]
        rw [hP] at hy he2
        exact prefix_le_suffix _ _ hLs y hy e he2
  | command c =>
    obtain ⟨c1, c2⟩ := Replay.exec_buffer st.engine c
    refine ⟨?_, h2, ?_, ?_⟩
    · show (st.engine.exec c).events_.Pairwise Event.le
      rw [c1]
      exact h1
    · intro e he
      show e.monotonic_time ≤ (st.engine.exec c).cur_mono_time_
      rw [c2]
      exact h3 e he
    · intro e he
      show (st.engine.exec c).cur_mono_time_ ≤ e.monotonic_time
      have he2 : e ∈ (st.engine.exec c).events_.drop st.cursor := he
      rw [c1] at he2
      rw [c2]
      exact h4 e he2

theorem StreamState.run_ordered (steps : List StreamStep) (st : StreamState) (h : st.Ordered) :
    (st.run steps).Ordered := by
  induction steps generalizing st with
  | nil => exact h
  | cons x xs ih => exact ih (st.step x) (StreamState.step_ordered st x h)

theorem StreamState.start_ordered (flags : Nat) : (StreamState.start flags).Ordered := by
  refine ⟨List.Pairwise.nil, List.Pairwise.nil, ?_, ?_⟩
  · intro e he
    exact absurd he (List.not_mem_nil _)
  · intro e he
    have he2 : e ∈ ([] : List Event).drop 0 := he
    exact absurd he2 (by simp)

/-- C7: `mergeSegments` keeps the event buffer sorted by the Event order, so
after any history of segment loads and merges, in any completion order, from
construction, `events_` is sorted (non-decreasing in monotonic time), and the
events any `publishEvents` call hands to the publish path, under any filter,
are non-decreasing in timestamp. Over a whole playing stream, with merges,
`publishEvents` calls and filter changes interleaved in any order, the sequence
of all events handed to the publish path is non-decreasing in timestamp. -/
theorem C7_events_stay_sorted :
    (∀ (s : Replay) (b e : Nat), s.events_.Pairwise Event.le →
      (s.mergeSegments b e).events_.Pairwise Event.le) ∧
    (∀ (flags : Nat) (steps : List LoadStep),
      ((Replay.construct flags).mergeRun steps).events_.Pairwise Event.le ∧
      ((Replay.construct flags).mergeRun steps).events_.Pairwise
        (fun a b => a.monotonic_time ≤ b.monotonic_time) ∧
      ∀ (filter : Option replayEventFilter) (ctx : Nat) (isCamera : Event → Bool)
        (reach first last : Nat),
        ((((Replay.construct flags).mergeRun steps).installEventFilter filter ctx).publishedEvents
          isCamera reach first last).Pairwise
            (fun a b => a.monotonic_time ≤ b.monotonic_time)) ∧
    (∀ (flags : Nat) (steps : List StreamStep),
      ((StreamState.start flags).run steps).engine.events_.Pairwise Event.le ∧
      ((StreamState.start flags).run steps).handed.Pairwise
        (fun a b => a.monotonic_time ≤ b.monotonic_time)) := by
  refine ⟨Replay.mergeSegments_sorted, fun flags steps => ?_, fun flags steps => ?_⟩
  · have h := Replay.mergeRun_sorted steps (Replay.construct flags) List.Pairwise.nil
    refine ⟨h, h.imp (fun hab => Event.time_le_of_le hab), ?_⟩
    intro filter ctx isCamera reach first last
    exact Replay.published_sorted _ isCamera reach first last h
  · have h := StreamState.run_ordered steps (StreamState.start flags)
      (StreamState.start_ordered flags)
    exact ⟨h.1, h.2.1⟩

/-- Witness for C7: segment 1 was merged first; merging segment 0 afterwards
puts its events in front, and a stream that had handed over the event at 70
goes on with the event at 80. -/
theorem C7_events_stay_sorted_witness :
    lateFirst.events_ = [⟨70, "can", [], 1⟩, ⟨80, "can", [], 1⟩] ∧
    (lateFirst.mergeSegments 0 2).events_ =
      [⟨10, "can", [], 0⟩, ⟨20, "X", [], 0⟩, ⟨70, "can", [], 1⟩, ⟨80, "can", [], 1⟩] ∧
    lateFirst.events_.Pairwise Event.le ∧
    (lateFirst.mergeSegments 0 2).events_.Pairwise Event.le ∧
    ((StreamState.start 0).run lateFirstHistory).engine.events_ =
      [⟨10, "can", [], 0⟩, ⟨20, "X", [], 0⟩, ⟨70, "can", [], 1⟩, ⟨80, "can", [], 1⟩] ∧
    ((StreamState.start 0).run lateFirstHistory).handed =
      [⟨70, "can", [], 1⟩, ⟨80, "can", [], 1⟩] :=
  ⟨by decide, by decide, by decide, C7_events_stay_sorted.1 lateFirst 0 2 (by decide),
   by decide, by decide⟩

/-! ## Flags -/

theorem and_two_pow_ne_zero (x k : Nat) : ((x &&& 2 ^ k) != 0) = x.testBit k := by
  cases h : x.testBit k
  · have h0 : x &&& 2 ^ k = 0 := by
      apply Nat.eq_of_testBit_eq
      intro i
      rw [Nat.testBit_and, Nat.testBit_two_pow, Nat.zero_testBit]
      by_cases hki : k = i
      · subst hki
        simp [h]
      · simp [hki]
    simp [h0]
  · have h0 : x &&& 2 ^ k ≠ 0 := by
      intro h0
      have h1 := congrArg (fun n => n.testBit k) h0
      simp [Nat.testBit_and, Nat.testBit_two_pow_self, h] at h1
    simp [h0]

theorem REPLAY_FLAGS.val_eq_two_pow (f : REPLAY_FLAGS) (hf : f ≠ REPLAY_FLAG_NONE) :
    f.val = 2 ^ f.bit := by
  cases f <;> first | rfl | exact absurd rfl hf

theorem Replay.hasFlag_eq_testBit (s : Replay) (f : REPLAY_FLAGS) (hf : f ≠ REPLAY_FLAG_NONE) :
    s.hasFlag f = s.flags_.testBit f.bit := by
  unfold Replay.hasFlag
  rw [REPLAY_FLAGS.val_eq_two_pow f hf]
  exact and_two_pow_ne_zero _ _

theorem REPLAY_FLAGS.testBit_val (g f : REPLAY_FLAGS) (hf : f ≠ REPLAY_FLAG_NONE) :
    g.val.testBit f.bit = decide (g = f) := by
  cases f <;> first | exact absurd rfl hf | (cases g <;> decide)

theorem testBit_foldl_or (S : List REPLAY_FLAGS) (acc k : Nat) :
    (S.foldl (fun a f => a ||| f.val) acc).testBit k =
      (acc.testBit k || S.any (fun g => g.val.testBit k)) := by
  induction S generalizing acc with
  | nil => simp
  | cons g gs ih =>
    rw [List.foldl_cons, ih, Nat.testBit_or, List.any_cons, Bool.or_assoc]

/-- C8: every option other than `REPLAY_FLAG_NONE` is a single bit, different
options have different values, and there are eight of them; so when `flags_` is
the bitwise OR of a collection `S` of options, `hasFlag(f)` is true exactly for
the options `f` in `S`. -/
theorem C8_flags_independent :
    (∀ f : REPLAY_FLAGS, f ≠ REPLAY_FLAG_NONE → f.val = 2 ^ f.bit) ∧
    (∀ f g : REPLAY_FLAGS, f.val = g.val → f = g) ∧
    ([REPLAY_FLAG_DCAM, REPLAY_FLAG_ECAM, REPLAY_FLAG_NO_LOOP, REPLAY_FLAG_NO_FILE_CACHE,
      REPLAY_FLAG_QCAMERA, REPLAY_FLAG_NO_HW_DECODER, REPLAY_FLAG_NO_VIPC,
      REPLAY_FLAG_ALL_SERVICES].length = 8 ∧
      ∀ f : REPLAY_FLAGS, f ≠ REPLAY_FLAG_NONE →
        f ∈ [REPLAY_FLAG_DCAM, REPLAY_FLAG_ECAM, REPLAY_FLAG_NO_LOOP, REPLAY_FLAG_NO_FILE_CACHE,
          REPLAY_FLAG_QCAMERA, REPLAY_FLAG_NO_HW_DECODER, REPLAY_FLAG_NO_VIPC,
          REPLAY_FLAG_ALL_SERVICES]) ∧
    (∀ (s : Replay) (S : List REPLAY_FLAGS) (f : REPLAY_FLAGS), f ≠ REPLAY_FLAG_NONE →
      s.flags_ = orFlags S → (s.hasFlag f = true ↔ f ∈ S)) := by
  refine ⟨REPLAY_FLAGS.val_eq_two_pow, ?_, ⟨rfl, ?_⟩, ?_⟩
  · intro f g h
    cases f <;> cases g <;> first | rfl | exact absurd h (by decide)
  · intro f hf
    cases f <;> first | exact absurd rfl hf | decide
  · intro s S f hf hs
    rw [Replay.hasFlag_eq_testBit s f hf, hs]
    unfold orFlags
    rw [testBit_foldl_or, Nat.zero_testBit, Bool.false_or, List.any_eq_true]
    constructor
    · rintro ⟨g, hg, hbit⟩
      rw [REPLAY_FLAGS.testBit_val g f hf] at hbit
      exact (of_decide_eq_true hbit) ▸ hg
    · intro hmem
      refine ⟨f, hmem, ?_⟩
      rw [REPLAY_FLAGS.testBit_val f f hf]
      exact decide_eq_true rfl

/-- Witness for C8: flags `DCAM | NO_LOOP`. -/
theorem C8_flags_independent_witness :
    REPLAY_FLAG_DCAM.val = 2 ^ REPLAY_FLAG_DCAM.bit ∧
    (dcamNoLoop.hasFlag REPLAY_FLAG_DCAM = true ↔
      REPLAY_FLAG_DCAM ∈ [REPLAY_FLAG_DCAM, REPLAY_FLAG_NO_LOOP]) ∧
    (dcamNoLoop.hasFlag REPLAY_FLAG_ECAM = true ↔
      REPLAY_FLAG_ECAM ∈ [REPLAY_FLAG_DCAM, REPLAY_FLAG_NO_LOOP]) :=
  ⟨C8_flags_independent.1 REPLAY_FLAG_DCAM (by decide),
   C8_flags_independent.2.2.2 dcamNoLoop [REPLAY_FLAG_DCAM, REPLAY_FLAG_NO_LOOP]
     REPLAY_FLAG_DCAM (by decide) (by decide),
   C8_flags_independent.2.2.2 dcamNoLoop [REPLAY_FLAG_DCAM, REPLAY_FLAG_NO_LOOP]
     REPLAY_FLAG_ECAM (by decide) (by decide)⟩

theorem clearMask_testBit (i : Nat) :
    (2 ^ 32 - 1 - REPLAY_FLAG_NO_LOOP.val).testBit i = (decide (i < 32) && decide (i ≠ 4)) := by
  by_cases h : i < 32
  · interval_cases i <;> decide
  · have hlt : 2 ^ 32 - 1 - REPLAY_FLAG_NO_LOOP.val < 2 ^ i :=
      lt_of_lt_of_le (by decide) (Nat.pow_le_pow_right (by decide) (not_lt.mp h))
    rw [Nat.testBit_lt_two_pow hlt]
    simp [h]

theorem testBit_high_of_lt (x i : Nat) (hx : x < 2 ^ 32) (hi : ¬ i < 32) :
    x.testBit i = false :=
  Nat.testBit_lt_two_pow (lt_of_lt_of_le hx (Nat.pow_le_pow_right (by decide) (not_lt.mp hi)))

theorem Replay.setLoop_testBit (s : Replay) (b : Bool) (i : Nat) (h : s.flags_ < 2 ^ 32) :
    (s.setLoop b).flags_.testBit i = if i = 4 then !b else s.flags_.testBit i := by
  cases b
  · show ((s.flags_ ||| 2 ^ 4) % 2 ^ 32).testBit i = _
    rw [Nat.testBit_mod_two_pow, Nat.testBit_or, Nat.testBit_two_pow]
    by_cases h4 : i = 4
    · subst h4
      simp
    · by_cases h32 : i < 32
      · have : ¬ (4 = i) := fun e => h4 e.symm
        simp [h4, h32, this]
      · simp [h4, h32, testBit_high_of_lt s.flags_ i h h32]
  · show (s.flags_ &&& (2 ^ 32 - 1 - REPLAY_FLAG_NO_LOOP.val)).testBit i = _
    rw [Nat.testBit_and, clearMask_testBit]
    by_cases h4 : i = 4
    · subst h4
      simp
    · by_cases h32 : i < 32
      · simp [h4, h32]
      · simp [h4, h32, testBit_high_of_lt s.flags_ i h h32]

theorem Replay.setLoop_lt (s : Replay) (b : Bool) (h : s.flags_ < 2 ^ 32) :
    (s.setLoop b).flags_ < 2 ^ 32 := by
  cases b
  · exact Nat.mod_lt _ (by decide)
  · exact lt_of_le_of_lt Nat.and_le_left h

theorem Replay.setLoop_eq (s : Replay) (b : Bool) :
    s.setLoop b = { s with flags_ := (s.setLoop b).flags_ } := by
  cases b <;> rfl

/-- C9: for every 32-bit flags value and every boolean `b`, after `setLoop(b)`
the query `loop()` returns `b`; `loop()` is the negation of
`hasFlag(REPLAY_FLAG_NO_LOOP)` in every state; `hasFlag(f)` is unchanged for
every `f` other than `REPLAY_FLAG_NO_LOOP`; only bit `0x10` (bit 4) of the
flags can change; the flags stay a 32-bit value; and a second `setLoop(b)`
changes nothing. -/
theorem C9_setLoop (s : Replay) (b : Bool) (h : s.flags_ < 2 ^ 32) :
    (s.setLoop b).loop = b ∧
    (∀ t : Replay, t.loop = !t.hasFlag REPLAY_FLAG_NO_LOOP) ∧
    (∀ f : REPLAY_FLAGS, f ≠ REPLAY_FLAG_NO_LOOP → (s.setLoop b).hasFlag f = s.hasFlag f) ∧
    (∀ i : Nat, i ≠ 4 → (s.setLoop b).flags_.testBit i = s.flags_.testBit i) ∧
    (s.setLoop b).flags_ < 2 ^ 32 ∧
    (s.setLoop b).setLoop b = s.setLoop b := by
  have hloop : ∀ t : Replay, t.loop = !t.hasFlag REPLAY_FLAG_NO_LOOP := fun t => rfl
  have hlt := Replay.setLoop_lt s b h
  refine ⟨?_, hloop, ?_, ?_, hlt, ?_⟩
  · rw [hloop, Replay.hasFlag_eq_testBit _ _ (by decide)]
    show (!(s.setLoop b).flags_.testBit 4) = b
    rw [Replay.setLoop_testBit s b 4 h]
    simp
  · intro f hf
    by_cases hn : f = REPLAY_FLAG_NONE
    · subst hn
      show ((s.setLoop b).flags_ &&& 0 != 0) = (s.flags_ &&& 0 != 0)
      rw [Nat.and_zero, Nat.and_zero]
    · rw [Replay.hasFlag_eq_testBit _ f hn, Replay.hasFlag_eq_testBit _ f hn,
        Replay.setLoop_testBit s b _ h]
      have hbit : f.bit ≠ 4 := by
        cases f <;> first | decide | exact absurd rfl hf
      rw [if_neg hbit]
  · intro i hi
    rw [Replay.setLoop_testBit s b i h, if_neg hi]
  · have hflags : ((s.setLoop b).setLoop b).flags_ = (s.setLoop b).flags_ := by
      apply Nat.eq_of_testBit_eq
      intro i
      rw [Replay.setLoop_testBit (s.setLoop b) b i hlt]
      by_cases h4 : i = 4
      · rw [if_pos h4, Replay.setLoop_testBit s b i h, if_pos h4]
      · rw [if_neg h4]
    rw [Replay.setLoop_eq (s.setLoop b) b, hflags]

/-- Witness for C9: looping switched on for an engine constructed with
`DCAM | NO_LOOP`. -/
theorem C9_setLoop_witness :
    dcamNoLoop.flags_ < 2 ^ 32 ∧ (dcamNoLoop.setLoop true).loop = true ∧
    (dcamNoLoop.setLoop true).hasFlag REPLAY_FLAG_DCAM = dcamNoLoop.hasFlag REPLAY_FLAG_DCAM ∧
    (dcamNoLoop.setLoop true).setLoop true = dcamNoLoop.setLoop true :=
  ⟨by decide, (C9_setLoop dcamNoLoop true (by decide)).1,
   (C9_setLoop dcamNoLoop true (by decide)).2.2.1 REPLAY_FLAG_DCAM (by decide),
   (C9_setLoop dcamNoLoop true (by decide)).2.2.2.2.2⟩

/-! ## Time -/

theorem roundHalfEven_mono (d n m : Nat) (hd : 0 < d) (h : n ≤ m) :
    roundHalfEven n d ≤ roundHalfEven m d := by
  have hq : n / d ≤ m / d := Nat.div_le_div_right h
  have h1 := Nat.div_add_mod n d
  have h2 := Nat.div_add_mod m d
  have hr := Nat.mod_lt n hd
  have hr2 := Nat.mod_lt m hd
  unfold roundHalfEven
  rcases Nat.lt_or_ge (n / d) (m / d) with hlt | hge
  · split_ifs <;> omega
  · have heq : n / d = m / d := le_antisymm hq hge
    have hrr : n % d ≤ m % d := by
      rw [heq] at h1
      omega
    split_ifs <;> omega

theorem roundHalfEven_mul (q d : Nat) (hd : 0 < d) : roundHalfEven (q * d) d = q := by
  unfold roundHalfEven
  rw [Nat.mul_mod_left, Nat.mul_div_cancel q hd, if_pos (by omega)]

theorem roundHalfEven_ge (lo n d : Nat) (hd : 0 < d) (h : lo * d ≤ n) :
    lo ≤ roundHalfEven n d := by
  have := roundHalfEven_mono d _ _ hd h
  rwa [roundHalfEven_mul lo d hd] at this

theorem roundHalfEven_le (hi n d : Nat) (hd : 0 < d) (h : n ≤ hi * d) :
    roundHalfEven n d ≤ hi := by
  have := roundHalfEven_mono d _ _ hd h
  rwa [roundHalfEven_mul hi d hd] at this

theorem scaleDown_spec (d fuel j : Nat) (hend : d < 2 ^ (53 + (j + fuel)))
    (hprev : j = 0 ∨ 2 ^ (52 + j) ≤ d) :
    d < 2 ^ (53 + scaleDown d fuel j) ∧
    (scaleDown d fuel j = 0 ∨ 2 ^ (52 + scaleDown d fuel j) ≤ d) ∧
    scaleDown d fuel j ≤ j + fuel := by
  induction fuel generalizing j with
  | zero => exact ⟨hend, hprev, le_refl _⟩
  | succ f ih =>
    unfold scaleDown
    by_cases h : d < 2 ^ (53 + j)
    · rw [if_pos h]
      exact ⟨h, hprev, by omega⟩
    · rw [if_neg h]
      have hnext : 2 ^ (52 + (j + 1)) ≤ d := by
        have : 52 + (j + 1) = 53 + j := by omega
        rw [this]
        exact not_lt.mp h
      have hend2 : d < 2 ^ (53 + (j + 1 + f)) := by
        have : j + 1 + f = j + (f + 1) := by omega
        rw [this]
        exact hend
      obtain ⟨a, b, c⟩ := ih (j + 1) hend2 (Or.inr hnext)
      exact ⟨a, b, by omega⟩

theorem scaleUp_spec (x fuel k : Nat) (hend : 2 ^ 52 * 10 ^ 9 ≤ x * 2 ^ (k + fuel))
    (hprev : k = 0 ∨ x * 2 ^ k < 2 * (2 ^ 52 * 10 ^ 9)) :
    2 ^ 52 * 10 ^ 9 ≤ x * 2 ^ scaleUp x fuel k ∧
    (scaleUp x fuel k = 0 ∨ x * 2 ^ scaleUp x fuel k < 2 * (2 ^ 52 * 10 ^ 9)) := by
  induction fuel generalizing k with
  | zero => exact ⟨hend, hprev⟩
  | succ f ih =>
    unfold scaleUp
    by_cases h : 2 ^ 52 * 10 ^ 9 ≤ x * 2 ^ k
    · rw [if_pos h]
      exact ⟨h, hprev⟩
    · rw [if_neg h]
      have hnext : x * 2 ^ (k + 1) < 2 * (2 ^ 52 * 10 ^ 9) := by
        have h2 : x * 2 ^ (k + 1) = 2 * (x * 2 ^ k) := by ring
        have := not_le.mp h
        omega
      have hend2 : 2 ^ 52 * 10 ^ 9 ≤ x * 2 ^ (k + 1 + f) := by
        have : k + 1 + f = k + (f + 1) := by omega
        rw [this]
        exact hend
      exact ih (k + 1) hend2 (Or.inr hnext)

theorem scaleDown_bounds (d : Nat) (hd : d < 2 ^ 64) :
    d < 2 ^ (53 + scaleDown d 11 0) ∧
    (scaleDown d 11 0 = 0 ∨ 2 ^ (52 + scaleDown d 11 0) ≤ d) ∧ scaleDown d 11 0 ≤ 11 := by
  have h := scaleDown_spec d 11 0 (by simpa using hd) (Or.inl rfl)
  exact ⟨h.1, h.2.1, by omega⟩

theorem roundHalfEven_one (n : Nat) : roundHalfEven n 1 = n := by
  have := roundHalfEven_mul n 1 one_pos
  rwa [Nat.mul_one] at this

theorem u64ToDouble_of_lt (d : Nat) (hd : d < 2 ^ 53) : u64ToDouble d = d := by
  have h0 : scaleDown d 11 0 = 0 := by
    unfold scaleDown
    rw [if_pos (by simpa using hd)]
  unfold u64ToDouble
  rw [h0, pow_zero, roundHalfEven_one, Nat.mul_one]

theorem u64ToDouble_ge (d : Nat) (hd : d < 2 ^ 64) (h53 : 2 ^ 53 ≤ d) :
    2 ^ (52 + scaleDown d 11 0) ≤ u64ToDouble d := by
  obtain ⟨h1, h2, _⟩ := scaleDown_bounds d hd
  have hj : 2 ^ (52 + scaleDown d 11 0) ≤ d := by
    rcases h2 with h2 | h2
    · rw [h2] at h1
      omega
    · exact h2
  unfold u64ToDouble
  rw [pow_add] at hj ⊢
  exact Nat.mul_le_mul_right _ (roundHalfEven_ge _ _ _ (Nat.two_pow_pos _) hj)

theorem u64ToDouble_le (d : Nat) (hd : d < 2 ^ 64) :
    u64ToDouble d ≤ 2 ^ (53 + scaleDown d 11 0) := by
  obtain ⟨h1, _, _⟩ := scaleDown_bounds d hd
  unfold u64ToDouble
  rw [pow_add] at h1 ⊢
  exact Nat.mul_le_mul_right _ (roundHalfEven_le _ _ _ (Nat.two_pow_pos _) (le_of_lt h1))

theorem u64ToDouble_le_two_pow (d : Nat) (hd : d < 2 ^ 64) : u64ToDouble d ≤ 2 ^ 64 := by
  have h := u64ToDouble_le d hd
  have hj := (scaleDown_bounds d hd).2.2
  exact le_trans h (Nat.pow_le_pow_right (by decide) (by omega))

theorem u64ToDouble_pos (d : Nat) (hd : d < 2 ^ 64) (h0 : 0 < d) : 0 < u64ToDouble d := by
  by_cases h : d < 2 ^ 53
  · rw [u64ToDouble_of_lt d h]
    exact h0
  · exact lt_of_lt_of_le (Nat.two_pow_pos _) (u64ToDouble_ge d hd (not_lt.mp h))

theorem u64ToDouble_mono (d e : Nat) (he : e < 2 ^ 64) (h : d ≤ e) :
    u64ToDouble d ≤ u64ToDouble e := by
  have hd : d < 2 ^ 64 := lt_of_le_of_lt h he
  obtain ⟨d1, d2, _⟩ := scaleDown_bounds d hd
  obtain ⟨e1, e2, _⟩ := scaleDown_bounds e he
  rcases Nat.lt_trichotomy (scaleDown d 11 0) (scaleDown e 11 0) with hlt | heq | hgt
  · have h53 : 2 ^ 53 ≤ e := by
      rcases e2 with e2 | e2
      · omega
      · exact le_trans (Nat.pow_le_pow_right (by decide) (by omega)) e2
    refine le_trans (u64ToDouble_le d hd) (le_trans ?_ (u64ToDouble_ge e he h53))
    exact Nat.pow_le_pow_right (by decide) (by omega)
  · unfold u64ToDouble
    rw [heq]
    exact Nat.mul_le_mul_right _ (roundHalfEven_mono _ _ _ (Nat.two_pow_pos _) h)
  · exfalso
    have hd2 : 2 ^ (52 + scaleDown d 11 0) ≤ d := by
      rcases d2 with d2 | d2
      · omega
      · exact d2
    have : 2 ^ (53 + scaleDown e 11 0) ≤ 2 ^ (52 + scaleDown d 11 0) :=
      Nat.pow_le_pow_right (by decide) (by omega)
    omega

theorem scaleUp_bounds (x : Nat) (h0 : 0 < x) (hx : x ≤ 2 ^ 64) :
    2 ^ 52 * 10 ^ 9 ≤ x * 2 ^ scaleUp x 82 0 ∧
    x * 2 ^ scaleUp x 82 0 < 2 * (2 ^ 52 * 10 ^ 9) := by
  have hend : 2 ^ 52 * 10 ^ 9 ≤ x * 2 ^ (0 + 82) :=
    le_trans (by decide) (Nat.mul_le_mul_right _ h0)
  obtain ⟨h1, h2⟩ := scaleUp_spec x 82 0 hend (Or.inl rfl)
  refine ⟨h1, ?_⟩
  rcases h2 with h2 | h2
  · rw [h2, pow_zero, Nat.mul_one]
    exact lt_of_le_of_lt hx (by decide)
  · exact h2

theorem mantissa_bounds (x : Nat) (h0 : 0 < x) (hx : x ≤ 2 ^ 64) :
    2 ^ 52 ≤ roundHalfEven (x * 2 ^ scaleUp x 82 0) (10 ^ 9) ∧
    roundHalfEven (x * 2 ^ scaleUp x 82 0) (10 ^ 9) ≤ 2 ^ 53 := by
  obtain ⟨h1, h2⟩ := scaleUp_bounds x h0 hx
  refine ⟨roundHalfEven_ge _ _ _ (by decide) h1, roundHalfEven_le _ _ _ (by decide) ?_⟩
  have : 2 ^ 53 * 10 ^ 9 = 2 * (2 ^ 52 * 10 ^ 9) := by decide
  omega

theorem divBy1e9_nonneg (x : Nat) : 0 ≤ divBy1e9 x := by
  unfold divBy1e9
  split_ifs
  · exact le_refl _
  · positivity

theorem divBy1e9_pos (x : Nat) (h0 : 0 < x) (hx : x ≤ 2 ^ 64) : 0 < divBy1e9 x := by
  unfold divBy1e9
  rw [if_neg (by omega)]
  have hm := (mantissa_bounds x h0 hx).1
  have : 0 < roundHalfEven (x * 2 ^ scaleUp x 82 0) (10 ^ 9) :=
    lt_of_lt_of_le (Nat.two_pow_pos _) hm
  positivity

theorem divBy1e9_whole (n : Nat) : divBy1e9 (n * 10 ^ 9) = n := by
  unfold divBy1e9
  by_cases hn : n = 0
  · simp [hn]
  · rw [if_neg (by positivity)]
    have : n * 10 ^ 9 * 2 ^ scaleUp (n * 10 ^ 9) 82 0 =
        n * 2 ^ scaleUp (n * 10 ^ 9) 82 0 * 10 ^ 9 := by ring
    rw [this, roundHalfEven_mul _ _ (by decide)]
    push_cast
    field_simp

theorem divBy1e9_mono (x y : Nat) (hy : y ≤ 2 ^ 64) (h : x ≤ y) :
    divBy1e9 x ≤ divBy1e9 y := by
  by_cases hx0 : x = 0
  · rw [hx0]
    exact divBy1e9_nonneg y
  · have hxp : 0 < x := Nat.pos_of_ne_zero hx0
    have hyp : 0 < y := lt_of_lt_of_le hxp h
    have hx : x ≤ 2 ^ 64 := le_trans h hy
    obtain ⟨x1, x2⟩ := scaleUp_bounds x hxp hx
    obtain ⟨y1, y2⟩ := scaleUp_bounds y hyp hy
    obtain ⟨mx1, mx2⟩ := mantissa_bounds x hxp hx
    obtain ⟨my1, my2⟩ := mantissa_bounds y hyp hy
    have key : roundHalfEven (x * 2 ^ scaleUp x 82 0) (10 ^ 9) * 2 ^ scaleUp y 82 0 ≤
        roundHalfEven (y * 2 ^ scaleUp y 82 0) (10 ^ 9) * 2 ^ scaleUp x 82 0 := by
      rcases Nat.lt_trichotomy (scaleUp y 82 0) (scaleUp x 82 0) with hlt | heq | hgt
      · calc roundHalfEven (x * 2 ^ scaleUp x 82 0) (10 ^ 9) * 2 ^ scaleUp y 82 0
            ≤ 2 ^ 53 * 2 ^ scaleUp y 82 0 := Nat.mul_le_mul_right _ mx2
          _ = 2 ^ 52 * 2 ^ (scaleUp y 82 0 + 1) := by ring
          _ ≤ 2 ^ 52 * 2 ^ scaleUp x 82 0 :=
            Nat.mul_le_mul_left _ (Nat.pow_le_pow_right (by decide) hlt)
          _ ≤ roundHalfEven (y * 2 ^ scaleUp y 82 0) (10 ^ 9) * 2 ^ scaleUp x 82 0 :=
            Nat.mul_le_mul_right _ my1
      · rw [heq]
        apply Nat.mul_le_mul_right
        apply roundHalfEven_mono _ _ _ (by decide)
        exact Nat.mul_le_mul_right _ h
      · exfalso
        have hp : 2 ^ (scaleUp x 82 0 + 1) ≤ 2 ^ scaleUp y 82 0 :=
          Nat.pow_le_pow_right (by decide) hgt
        have h3 : x * 2 ^ (scaleUp x 82 0 + 1) ≤ y * 2 ^ scaleUp y 82 0 :=
          Nat.mul_le_mul h hp
        have h4 : x * 2 ^ (scaleUp x 82 0 + 1) = 2 * (x * 2 ^ scaleUp x 82 0) := by ring
        omega
    unfold divBy1e9
    rw [if_neg hx0, if_neg (by omega), div_le_div_iff₀ (by positivity) (by positivity)]
    exact_mod_cast key

theorem roundHalfEven_err (n d : Nat) (hd : 0 < d) :
    2 * (roundHalfEven n d * d) ≤ 2 * n + d ∧ 2 * n ≤ 2 * (roundHalfEven n d * d) + d := by
  have h1 := Nat.div_add_mod n d
  have hr := Nat.mod_lt n hd
  have h2 : (n / d + 1) * d = d * (n / d) + d := by ring
  have h3 : n / d * d = d * (n / d) := Nat.mul_comm _ _
  unfold roundHalfEven
  split_ifs <;> omega

theorem divBy1e9_accurate (x : Nat) (h0 : 0 < x) (hx : x ≤ 2 ^ 64) :
    |divBy1e9 x - (x : ℚ) / 10 ^ 9| * 2 ^ 53 ≤ (x : ℚ) / 10 ^ 9 := by
  obtain ⟨hlo, _⟩ := scaleUp_bounds x h0 hx
  obtain ⟨e1, e2⟩ := roundHalfEven_err (x * 2 ^ scaleUp x 82 0) (10 ^ 9) (by decide)
  unfold divBy1e9
  rw [if_neg (by omega)]
  generalize roundHalfEven (x * 2 ^ scaleUp x 82 0) (10 ^ 9) = m at e1 e2
  have hK : (0 : ℚ) < 2 ^ scaleUp x 82 0 := by positivity
  have q1 : (2 : ℚ) * ((m : ℚ) * 10 ^ 9) ≤ 2 * ((x : ℚ) * 2 ^ scaleUp x 82 0) + 10 ^ 9 := by
    exact_mod_cast e1
  have q2 : (2 : ℚ) * ((x : ℚ) * 2 ^ scaleUp x 82 0) ≤ 2 * ((m : ℚ) * 10 ^ 9) + 10 ^ 9 := by
    exact_mod_cast e2
  have q3 : (2 : ℚ) ^ 52 * 10 ^ 9 ≤ (x : ℚ) * 2 ^ scaleUp x 82 0 := by
    exact_mod_cast hlo
  generalize (2 : ℚ) ^ scaleUp x 82 0 = K at hK q1 q2 q3
  have hsub : (m : ℚ) / K - (x : ℚ) / 10 ^ 9 = ((m : ℚ) * 10 ^ 9 - (x : ℚ) * K) / (K * 10 ^ 9) := by
    field_simp
    ring
  have hq : (x : ℚ) / 10 ^ 9 = ((x : ℚ) * K) / (K * 10 ^ 9) := by
    field_simp
    ring
  rw [hsub, hq, abs_div, abs_of_pos (by positivity : (0 : ℚ) < K * 10 ^ 9), div_mul_eq_mul_div,
    div_le_div_iff_of_pos_right (by positivity)]
  have habs : |(m : ℚ) * 10 ^ 9 - (x : ℚ) * K| ≤ 10 ^ 9 / 2 := by
    rw [abs_le]
    constructor <;> linarith
  calc |(m : ℚ) * 10 ^ 9 - (x : ℚ) * K| * 2 ^ 53 ≤ 10 ^ 9 / 2 * 2 ^ 53 :=
        mul_le_mul_of_nonneg_right habs (by positivity)
    _ = 2 ^ 52 * 10 ^ 9 := by norm_num
    _ ≤ (x : ℚ) * K := q3

theorem subU64_of_le (a b : Nat) (ha : a < 2 ^ 64) (hb : b ≤ a) : subU64 a b = a - b := by
  unfold subU64
  omega

theorem subU64_of_lt (a b : Nat) (hb : b < 2 ^ 64) (hab : a < b) :
    subU64 a b = 2 ^ 64 - (b - a) := by
  unfold subU64
  omega

theorem subU64_lt (a b : Nat) : subU64 a b < 2 ^ 64 := by
  unfold subU64
  exact Nat.mod_lt _ (Nat.two_pow_pos _)

theorem divBy1e9_one : divBy1e9 1 = 4835703278458517 / 2 ^ 82 := by
  have hk : scaleUp 1 82 0 = 82 := by decide
  have hm : roundHalfEven (1 * 2 ^ 82) (10 ^ 9) = 4835703278458517 := by decide
  unfold divBy1e9
  rw [if_neg (by decide), hk, hm]
  norm_num

theorem divBy1e9_two_pow_63 : divBy1e9 (2 ^ 63) = 4835703278458517 / 2 ^ 19 := by
  have hk : scaleUp (2 ^ 63) 82 0 = 19 := by decide
  have hm : roundHalfEven (2 ^ 63 * 2 ^ 19) (10 ^ 9) = 4835703278458517 := by decide
  unfold divBy1e9
  rw [if_neg (by decide), hk, hm]
  norm_num

/-- C10, as stated, fails: the quotient is a `double`, so it is rounded. With
the route start at 0, `toSeconds(1)` is `4835703278458517 / 2^82`, not
`(1 - 0) / 10^9`. -/
theorem C10_seconds_counterexample :
    (Replay.construct 0).routeStartNanos ≤ 1 ∧
    (Replay.construct 0).toSeconds 1 = 4835703278458517 / 2 ^ 82 ∧
    (Replay.construct 0).toSeconds 1 ≠
      (((1 : Nat) : ℚ) - ((Replay.construct 0).routeStartNanos : ℚ)) / 10 ^ 9 := by
  have hval : (Replay.construct 0).toSeconds 1 = 4835703278458517 / 2 ^ 82 := by
    have h1 : u64ToDouble (subU64 1 (Replay.construct 0).route_start_ts_) = 1 := by decide
    unfold Replay.toSeconds
    rw [h1, divBy1e9_one]
  refine ⟨by decide, hval, ?_⟩
  rw [hval]
  have h0 : ((Replay.construct 0).routeStartNanos : ℚ) = 0 := by
    norm_num [Replay.routeStartNanos, Replay.construct]
  rw [h0]
  norm_num

/-- C10 (amended): `currentSeconds()` is `toSeconds` of the current monotonic
time; both are the 64-bit unsigned difference `(t - routeStartNanos()) mod 2^64`
converted to `double` and divided by `1e9` in `double`. For `t` at or after the
route start the result is the rounded value of `(t - start) / 10^9`: within a
relative error of `2^-53` of it when the difference is below `2^53`, exactly
`n` when the difference is `n` whole seconds below `2^53` nanoseconds, 0 at the
start, and non-decreasing in `t`. For `t` before the route start the difference
wraps to `2^64 - (start - t)` and the result is strictly positive, at least
9223372036 seconds when the start is at most `2^63`. The result is never
negative. -/
theorem C10_seconds_rounded (s : Replay) (t : Nat) (ht : t < 2 ^ 64)
    (hs : s.routeStartNanos < 2 ^ 64) :
    s.currentSeconds = s.toSeconds s.cur_mono_time_ ∧
    s.toSeconds t = divBy1e9 (u64ToDouble ((t + (2 ^ 64 - s.routeStartNanos)) % 2 ^ 64)) ∧
    (s.routeStartNanos ≤ t →
      s.toSeconds t = divBy1e9 (u64ToDouble (t - s.routeStartNanos)) ∧
      (t - s.routeStartNanos < 2 ^ 53 →
        |s.toSeconds t - ((t : ℚ) - (s.routeStartNanos : ℚ)) / 10 ^ 9| * 2 ^ 53 ≤
          ((t : ℚ) - (s.routeStartNanos : ℚ)) / 10 ^ 9) ∧
      (∀ n : Nat, t = s.routeStartNanos + n * 10 ^ 9 → n * 10 ^ 9 < 2 ^ 53 →
        s.toSeconds t = n) ∧
      (∀ u : Nat, t ≤ u → u < 2 ^ 64 → s.toSeconds t ≤ s.toSeconds u)) ∧
    s.toSeconds s.routeStartNanos = 0 ∧
    (t < s.routeStartNanos →
      subU64 t s.routeStartNanos = 2 ^ 64 - (s.routeStartNanos - t) ∧
      s.toSeconds t = divBy1e9 (u64ToDouble (2 ^ 64 - (s.routeStartNanos - t))) ∧
      0 < s.toSeconds t ∧
      (s.routeStartNanos ≤ 2 ^ 63 → 9223372036 ≤ s.toSeconds t)) ∧
    0 ≤ s.toSeconds t := by
  simp only [Replay.routeStartNanos] at hs ⊢
  refine ⟨rfl, ?_, ?_, ?_, ?_, divBy1e9_nonneg _⟩
  · unfold Replay.toSeconds subU64
    rw [Nat.mod_eq_of_lt hs]
  · intro hle
    have hval : s.toSeconds t = divBy1e9 (u64ToDouble (t - s.route_start_ts_)) := by
      unfold Replay.toSeconds
      rw [subU64_of_le t _ ht hle]
    refine ⟨hval, ?_, ?_, ?_⟩
    · intro h53
      rw [hval, u64ToDouble_of_lt _ h53]
      rcases Nat.eq_zero_or_pos (t - s.route_start_ts_) with h0 | hpos
      · have hts : (t : ℚ) = (s.route_start_ts_ : ℚ) := by
          have : t = s.route_start_ts_ := by omega
          rw [this]
        rw [h0, hts]
        simp [divBy1e9]
      · have hacc := divBy1e9_accurate (t - s.route_start_ts_) hpos (by omega)
        rwa [Nat.cast_sub hle] at hacc
    · intro n hn h53
      have hd : t - s.route_start_ts_ = n * 10 ^ 9 := by omega
      rw [hval, hd, u64ToDouble_of_lt _ h53, divBy1e9_whole]
    · intro u htu hu
      unfold Replay.toSeconds
      rw [subU64_of_le t _ ht hle, subU64_of_le u _ hu (le_trans hle htu)]
      have hu2 : u - s.route_start_ts_ < 2 ^ 64 := by omega
      exact divBy1e9_mono _ _ (u64ToDouble_le_two_pow _ hu2)
        (u64ToDouble_mono _ _ hu2 (Nat.sub_le_sub_right htu _))
  · unfold Replay.toSeconds
    rw [subU64_of_le _ _ hs (le_refl _), Nat.sub_self]
    have h0 : u64ToDouble 0 = 0 := by decide
    rw [h0]
    simp [divBy1e9]
  · intro hlt
    have hsub := subU64_of_lt t s.route_start_ts_ hs hlt
    have hd : 2 ^ 64 - (s.route_start_ts_ - t) < 2 ^ 64 := by omega
    have hval : s.toSeconds t = divBy1e9 (u64ToDouble (2 ^ 64 - (s.route_start_ts_ - t))) := by
      unfold Replay.toSeconds
      rw [hsub]
    refine ⟨hsub, hval, ?_, ?_⟩
    · rw [hval]
      exact divBy1e9_pos _ (u64ToDouble_pos _ hd (by omega)) (u64ToDouble_le_two_pow _ hd)
    · intro h63
      rw [hval]
      have hbig : 2 ^ 63 ≤ 2 ^ 64 - (s.route_start_ts_ - t) := by omega
      have hmono := divBy1e9_mono _ _ (u64ToDouble_le_two_pow _ hd)
        (u64ToDouble_mono _ _ hd hbig)
      have h1 : u64ToDouble (2 ^ 63) = 2 ^ 63 := by decide
      rw [h1, divBy1e9_two_pow_63] at hmono
      refine le_trans ?_ hmono
      norm_num

/-- Witness for C10 (amended): a route starting at one second, read at two
seconds and at time zero (before the start). -/
theorem C10_seconds_rounded_witness :
    ((2000000000 : Nat) < 2 ^ 64 ∧ lateStart.routeStartNanos < 2 ^ 64 ∧
      lateStart.routeStartNanos ≤ 2000000000 ∧
      2000000000 = lateStart.routeStartNanos + 1 * 10 ^ 9 ∧ 1 * 10 ^ 9 < 2 ^ 53 ∧
      lateStart.toSeconds 2000000000 = (1 : Nat)) ∧
    ((0 : Nat) < lateStart.routeStartNanos ∧ lateStart.routeStartNanos ≤ 2 ^ 63 ∧
      subU64 0 lateStart.routeStartNanos = 2 ^ 64 - (lateStart.routeStartNanos - 0) ∧
      0 < lateStart.toSeconds 0 ∧ 9223372036 ≤ lateStart.toSeconds 0) :=
  ⟨⟨by decide, by decide, by decide, by decide, by decide,
    ((C10_seconds_rounded lateStart 2000000000 (by decide) (by decide)).2.2.1
      (by decide)).2.2.1 1 (by decide) (by decide)⟩,
   ⟨by decide, by decide,
    ((C10_seconds_rounded lateStart 0 (by decide) (by decide)).2.2.2.2.1 (by decide)).1,
    ((C10_seconds_rounded lateStart 0 (by decide) (by decide)).2.2.2.2.1 (by decide)).2.2.1,
    ((C10_seconds_rounded lateStart 0 (by decide) (by decide)).2.2.2.2.1 (by decide)).2.2.2
      (by decide)⟩⟩
